import Mathlib

/-!
# Verification of the statement-parsing pipeline (`tools/pdf_to_json.py`)

This file gives a shallow embedding of the core pipeline of the expense
dashboard repository: bidi text normalization (`fix_hebrew_text`), keyword
classification (`categorize_merchant`), date normalization (`parse_date`),
transaction-line matching (`extract_transactions`), card-number extraction
(`extract_card_number`), rule-set maintenance (the ordered-dict operations of
`convert_pdf_to_json`), and the final pipeline assembly, and proves the
specification's claims about them.

Modelling conventions:
* Python strings are modelled as `List Char`; category names and rendered ISO
  dates as `String`.
* Python `float` amounts are modelled exactly as rationals (`ℚ`): every amount
  reaching the code is a finite decimal literal, and the sign tests and the
  concrete equalities the claims state are unaffected by binary rounding.
* Character classes (`\d`, `\s`, `str.lower`, `str.strip`) are modelled at
  ASCII fidelity, which is exact for the statement data the tool processes.
* Python `dict`s are modelled as association lists with Python's insertion
  semantics: updating an existing key replaces its value *in place* (keeping
  its position); a fresh key is appended at the end.
-/

/-- ASCII whitespace, the characters matched by the regex class `\s` (and
stripped by `str.strip()`) on ASCII input. -/
def isWS (c : Char) : Bool :=
  c = ' ' || c = '\t' || c = '\n' || c = '\r' || c = '\x0b' || c = '\x0c'

/-- ASCII decimal digit, the regex class `\d` on ASCII input. -/
def isDigitCh (c : Char) : Bool :=
  '0' ≤ c && c ≤ '9'

/-- The regex class `[\d,]` used by the amount groups. -/
def isDC (c : Char) : Bool :=
  isDigitCh c || c = ','

/-- Numeric value of a digit character. -/
def digitVal (c : Char) : Nat :=
  c.toNat - 48

/-- Characters of a string literal, the `List Char` view of a Python string. -/
def cs (s : String) : List Char :=
  s.data

/-- A Hebrew character: the right-to-left script range U+0590 – U+05FF tested
by `fix_hebrew_text` (`'֐' <= char <= '׿'`). -/
def isHebrew (c : Char) : Bool :=
  '֐' ≤ c && c ≤ '׿'

/-- `fix_hebrew_text` (pdf_to_json.py:24-46): if the text contains no
character in the Hebrew range it is returned unchanged (the empty string is
returned by the early `if not text` test, with the same result); otherwise the
whole segment is reversed character by character. -/
def fix_hebrew_text (text : List Char) : List Char :=
  if text.isEmpty then text
  else if text.any isHebrew then text.reverse
  else text

/-- Python `str.lower` on ASCII input, applied character-wise. -/
def lowerChars (s : List Char) : List Char :=
  s.map Char.toLower

/-- `needle` occurs contiguously at the start of `hay` (the first step of
Python's substring test). -/
def startsWithChars : List Char → List Char → Bool
  | [], _ => true
  | _ :: _, [] => false
  | a :: as, b :: bs => a = b && startsWithChars as bs

/-- Python's `needle in hay` substring containment. -/
def containsSub (needle : List Char) : List Char → Bool
  | [] => needle.isEmpty
  | b :: bs => startsWithChars needle (b :: bs) || containsSub needle bs

/-- A rule set as consumed by `categorize_merchant`: an ordered association
list from (lowercased) keyword to category name, modelling the insertion-order
iteration of a Python dict. -/
abbrev RuleList := List (List Char × String)

/-- The scanning loop of `categorize_merchant` (pdf_to_json.py:71-75): first
rule whose keyword is a substring of the lowercased merchant wins. -/
def scanRules (merchant_lower : List Char) : RuleList → String
  | [] => "Uncategorized"
  | (kw, cat) :: rest =>
    if containsSub kw merchant_lower then cat else scanRules merchant_lower rest

/-- `categorize_merchant` (pdf_to_json.py:62-75): lowercase the merchant, scan
the rules in insertion order, return the first matching category, else the
sentinel `"Uncategorized"`. -/
def categorize_merchant (merchant : List Char) (rules : RuleList) : String :=
  scanRules (lowerChars merchant) rules

/-- Python dict assignment `d[k] = v` on an ordered association list: an
existing key keeps its position and gets the new value; a fresh key is
appended at the end. -/
def dictInsert (k : List Char) (v : String) : RuleList → RuleList
  | [] => [(k, v)]
  | (k', v') :: rest =>
    if k' = k then (k', v) :: rest else (k', v') :: dictInsert k v rest

/-- The load pre-processing `rules_lower = {k.lower(): v for k, v in
rules.items()}` (pdf_to_json.py:280): a dict comprehension inserts the
lowercased keys one by one in iteration order. -/
def buildRulesLower (rules : RuleList) : RuleList :=
  rules.foldl (fun acc kv => dictInsert (lowerChars kv.1) kv.2 acc) []

/-- Python `str.strip()` on ASCII input: drop whitespace from both ends. -/
def pyStrip (s : List Char) : List Char :=
  ((s.dropWhile isWS).reverse.dropWhile isWS).reverse

-- ### The transaction-line matcher (pdf_to_json.py:108-181)
--
-- The two transaction regexes are embedded as specialized deterministic
-- matchers.  For these particular patterns the deterministic maximal-munch /
-- shortest-merchant strategy coincides with Python's backtracking `re.search`
-- semantics: every greedy sub-pattern (`-?[\d,]+\.?\d*`, `\s+`, the keyword
-- literals) is followed by a pattern whose first character is drawn from a
-- disjoint character class, so no backtracking into it can ever succeed, and
-- the lazy merchant group `(.+?)` is realized by trying break positions from
-- shortest to longest.

/-- One raw transaction as appended by `extract_transactions`
(pdf_to_json.py:175-179). -/
structure RawTransaction where
  raw_date : List Char
  merchant : List Char
  amount : ℚ
deriving DecidableEq, Repr

/-- Greedy match of `[\d,]+\.?\d*` (the unsigned amount group): maximal run
of digits/commas, optionally a dot and a maximal run of digits.  Returns the
matched text and the rest. -/
def munchNum (s : List Char) : Option (List Char × List Char) :=
  let d1 := s.takeWhile isDC
  let r1 := s.dropWhile isDC
  if d1.isEmpty then none
  else
    match r1 with
    | c :: r2 =>
      if c = '.' then
        some (d1 ++ '.' :: r2.takeWhile isDigitCh, r2.dropWhile isDigitCh)
      else some (d1, r1)
    | [] => some (d1, r1)

/-- Greedy match of `-?[\d,]+\.?\d*` (the signed charge-amount group). -/
def munchSignedNum (s : List Char) : Option (List Char × List Char) :=
  match s with
  | c :: t =>
    if c = '-' then
      match munchNum t with
      | some (g, r) => some ('-' :: g, r)
      | none => none
    else munchNum s
  | [] => munchNum s

/-- Greedy match of `\s+`: requires at least one whitespace character and
consumes the maximal run. -/
def munchWS (s : List Char) : Option (List Char) :=
  if (s.takeWhile isWS).isEmpty then none else some (s.dropWhile isWS)

/-- Match a fixed literal at the start of `s`, returning the rest. -/
def stripPrefixLit : List Char → List Char → Option (List Char)
  | [], s => some s
  | _ :: _, [] => none
  | a :: as, b :: bs => if a = b then stripPrefixLit as bs else none

/-- Match an alternation of fixed literals `(?:lit1|lit2|...)`, tried in
order.  None of the literals used below is a prefix of another, so at most one
alternative can match at a given position. -/
def munchKW (kws : List (List Char)) (s : List Char) : Option (List Char) :=
  match kws with
  | [] => none
  | k :: rest =>
    match stripPrefixLit k s with
    | some r => some r
    | none => munchKW rest s

/-- The non-installment transaction-type literals of `regular_pattern`
(pdf_to_json.py:123), in alternation order. -/
def regularKWs : List (List Char) :=
  [cs "הליגר הקסע", cs "ל\"וח לקייס", cs "הקסע רגילה", cs "ל\"חו לקייס"]

/-- The installment transaction-type literals of `installment_pattern`
(pdf_to_json.py:135-136), in alternation order. -/
def installmentKWs : List (List Char) :=
  [cs "םימולשתב הקסע", cs "הליגר םימולשת תקסע"]

/-- Match `\d{2}/\d{2}/\d{2}` (the date group), returning the 8 matched
characters and the rest. -/
def matchDate : List Char → Option (List Char × List Char)
  | a :: b :: s1 :: c :: d :: s2 :: e :: f :: r =>
    if s1 = '/' && s2 = '/' && isDigitCh a && isDigitCh b && isDigitCh c &&
        isDigitCh d && isDigitCh e && isDigitCh f then
      some ([a, b, s1, c, d, s2, e, f], r)
    else none
  | _ => none

/-- Match `\s+(\d{2}/\d{2}/\d{2})`, the break that terminates the lazy
merchant group.  Returns the captured date and the rest. -/
def tryWSDate (s : List Char) : Option (List Char × List Char) :=
  if (s.takeWhile isWS).isEmpty then none else matchDate (s.dropWhile isWS)

/-- The lazy merchant group `(.+?)\s+(\d{2}/\d{2}/\d{2})`: grow the merchant
one character at a time (never across a newline, which `.` does not match)
and stop at the first position where whitespace followed by a date token
matches.  `acc` holds the reversed merchant read so far. -/
def merchantScan (acc : List Char) : List Char → Option (List Char × List Char × List Char)
  | [] => none
  | c :: rest =>
    if c = '\n' then none
    else
      match tryWSDate rest with
      | some (dt, r) => some ((c :: acc).reverse, dt, r)
      | none => merchantScan (c :: acc) rest

/-- Attempt `regular_pattern` (pdf_to_json.py:121-127) at the start of `s`.
Returns (charge-amount group, merchant group, date group); the original-amount
group is matched but unused by the caller. -/
def tryRegular (s : List Char) : Option (List Char × List Char × List Char) :=
  match munchSignedNum s with
  | none => none
  | some (g1, r1) =>
    match munchWS r1 with
    | none => none
    | some r2 =>
      match munchKW regularKWs r2 with
      | none => none
      | some r3 =>
        match munchWS r3 with
        | none => none
        | some r4 =>
          match munchNum r4 with
          | none => none
          | some (_, r5) =>
            match munchWS r5 with
            | none => none
            | some r6 =>
              match merchantScan [] r6 with
              | none => none
              | some (m, dt, _) => some (g1, m, dt)

/-- Attempt `installment_pattern` (pdf_to_json.py:133-140) at the start of
`s`: identical shape, but the type keyword appears twice. -/
def tryInstallment (s : List Char) : Option (List Char × List Char × List Char) :=
  match munchSignedNum s with
  | none => none
  | some (g1, r1) =>
    match munchWS r1 with
    | none => none
    | some r2 =>
      match munchKW installmentKWs r2 with
      | none => none
      | some r3 =>
        match munchWS r3 with
        | none => none
        | some r4 =>
          match munchKW installmentKWs r4 with
          | none => none
          | some r5 =>
            match munchWS r5 with
            | none => none
            | some r6 =>
              match munchNum r6 with
              | none => none
              | some (_, r7) =>
                match munchWS r7 with
                | none => none
                | some r8 =>
                  match merchantScan [] r8 with
                  | none => none
                  | some (m, dt, _) => some (g1, m, dt)

/-- `re.search` semantics: try the pattern at every start position from left
to right and return the first success. -/
def searchAt {α : Type} (f : List Char → Option α) : List Char → Option α
  | [] => f []
  | c :: rest =>
    match f (c :: rest) with
    | some r => some r
    | none => searchAt f rest

/-- One line's pattern matching (pdf_to_json.py:156-159): the regular pattern
is searched first over the whole line; only if it matches nowhere is the
installment pattern searched. -/
def searchLine (line : List Char) : Option (List Char × List Char × List Char) :=
  match searchAt tryRegular line with
  | some r => some r
  | none => searchAt tryInstallment line

/-- The header/total markers that make a line be skipped before matching
(pdf_to_json.py:152). -/
def headerATxt : List Char := cs "בויח םוכס"

/-- The second header marker of pdf_to_json.py:152. -/
def headerBTxt : List Char := cs "כ\"הס"

/-- Python `float()` restricted to the strings that can reach it here
(a comma-stripped match of `-?[\d,]+\.?\d*`, i.e. an optional sign, digits,
an optional dot, digits).  Returns `none` where `float()` raises
`ValueError` (which the source catches with `continue`).  The value is exact:
every such string denotes a finite decimal. -/
def natVal (s : List Char) : Nat :=
  s.foldl (fun acc c => 10 * acc + digitVal c) 0

/-- See `natVal`; the toplevel numeric parse used for the charge amount.  The
value `intpart.fracpart` is assembled as the exact rational
`(intpart·10^k + fracpart) / 10^k`, built with `Rat.divInt` from integer
arithmetic. -/
def parseFloat (s : List Char) : Option ℚ :=
  let core : List Char → Option (Int × Nat) := fun t =>
    let ip := t.takeWhile isDigitCh
    let r := t.dropWhile isDigitCh
    match r with
    | [] => if ip.isEmpty then none else some ((natVal ip : Int), 0)
    | '.' :: fp =>
      if fp.all isDigitCh && !(ip.isEmpty && fp.isEmpty) then
        some (((natVal ip : Int) * 10 ^ fp.length + (natVal fp : Int), fp.length))
      else none
    | _ => none
  match s with
  | '-' :: t => (core t).map (fun p => Rat.divInt (-p.1) (10 ^ p.2))
  | _ => (core s).map (fun p => Rat.divInt p.1 (10 ^ p.2))

/-- Per-line processing of `extract_transactions` (pdf_to_json.py:150-179):
skip header/total lines, search the two patterns, strip commas from the
charge amount, parse it numerically, drop non-positive amounts, and build the
`RawTransaction` with the merchant stripped and bidi-normalized. -/
def process_line (line : List Char) : Option RawTransaction :=
  if containsSub headerATxt line || containsSub headerBTxt line then none
  else
    match searchLine line with
    | none => none
    | some (g1, m, dt) =>
      match parseFloat (g1.filter (fun c => c ≠ ',')) with
      | none => none
      | some q =>
        if q ≤ 0 then none
        else some ⟨dt, fix_hebrew_text (pyStrip m), q⟩

/-- `extract_transactions` (pdf_to_json.py:108-181) over the already-extracted
text lines of each page: every matching line contributes exactly one raw
transaction, in page order then line order. -/
def extract_transactions (pages : List (List (List Char))) : List RawTransaction :=
  (pages.map (fun lines => lines.filterMap process_line)).flatten

-- ### Date normalization (pdf_to_json.py:78-105)

/-- Split a string at every `'/'` (the literal separators of the
`"%d/%m/%y"` format); `strptime`'s field classes match only digits, so its
regex decomposes the input exactly this way. -/
def splitOnSlash : List Char → List (List Char)
  | [] => [[]]
  | c :: rest =>
    if c = '/' then [] :: splitOnSlash rest
    else
      match splitOnSlash rest with
      | [] => [[c]]
      | f :: fs => (c :: f) :: fs

/-- The `%d` field of `strptime`: regex `3[01]|[12]\d|0[1-9]|[1-9]| [1-9]`,
i.e. one digit with value 1-9, two digits with value 1-31, or — the
ctime-style padding alternative — a space followed by a nonzero digit. -/
def dayField : List Char → Option Nat
  | [c] =>
    if isDigitCh c && decide (1 ≤ digitVal c) then some (digitVal c) else none
  | [c1, c2] =>
    if isDigitCh c1 && isDigitCh c2 then
      if 1 ≤ 10 * digitVal c1 + digitVal c2 ∧ 10 * digitVal c1 + digitVal c2 ≤ 31 then
        some (10 * digitVal c1 + digitVal c2)
      else none
    else if c1 = ' ' && isDigitCh c2 && decide (1 ≤ digitVal c2) then
      some (digitVal c2)
    else none
  | _ => none

/-- The `%m` field of `strptime`: regex `1[0-2]|0[1-9]|[1-9]`, i.e. one digit
with value 1-9 or two digits with value 1-12. -/
def monthField : List Char → Option Nat
  | [c] =>
    if isDigitCh c && decide (1 ≤ digitVal c) then some (digitVal c) else none
  | [c1, c2] =>
    if isDigitCh c1 && isDigitCh c2 then
      if 1 ≤ 10 * digitVal c1 + digitVal c2 ∧ 10 * digitVal c1 + digitVal c2 ≤ 12 then
        some (10 * digitVal c1 + digitVal c2)
      else none
    else none
  | _ => none

/-- The `%y` field of `strptime`: regex `\d\d`, exactly two digits. -/
def yearField : List Char → Option Nat
  | [c1, c2] =>
    if isDigitCh c1 && isDigitCh c2 then some (10 * digitVal c1 + digitVal c2)
    else none
  | _ => none

/-- `strptime`'s two-digit-year pivot: 00-68 maps to 2000-2068, 69-99 to
1969-1999. -/
def pivotYear (y : Nat) : Nat :=
  if y ≤ 68 then 2000 + y else 1900 + y

/-- Gregorian leap year, as validated by `datetime`. -/
def isLeapYear (y : Nat) : Bool :=
  y % 4 = 0 && (y % 100 ≠ 0 || y % 400 = 0)

/-- Number of days of month `m` of year `y`, as validated by `datetime`. -/
def daysInMonth (y m : Nat) : Nat :=
  if m = 2 then (if isLeapYear y then 29 else 28)
  else if m = 4 ∨ m = 6 ∨ m = 9 ∨ m = 11 then 30
  else 31

/-- Zero-padded two-digit rendering, as in `strftime`'s `%m`/`%d`. -/
def pad2 (n : Nat) : String :=
  if n < 10 then "0" ++ toString n else toString n

/-- `strftime("%Y-%m-%d")` for the years reachable here (all four-digit). -/
def isoRender (y m d : Nat) : String :=
  toString y ++ "-" ++ pad2 m ++ "-" ++ pad2 d

/-- The digit character of `n < 10`. -/
def digitCh (n : Nat) : Char :=
  Char.ofNat (48 + n)

/-- The canonical zero-padded two-digit spelling of `n ≤ 99`, used to state
what `parse_date` does on dates written in strict `DD/MM/YY` form. -/
def twoDig (n : Nat) : List Char :=
  [digitCh (n / 10), digitCh (n % 10)]

/-- `parse_date` (pdf_to_json.py:78-87): `datetime.strptime(s, "%d/%m/%y")`
rendered back with `strftime("%Y-%m-%d")`; any `ValueError` (format mismatch,
unconverted trailing data, or an invalid calendar date) yields `None`. -/
def parse_date (s : List Char) : Option String :=
  match splitOnSlash s with
  | [df, mf, yf] =>
    match dayField df, monthField mf, yearField yf with
    | some d, some m, some y =>
      let yr := pivotYear y
      if d ≤ daysInMonth yr m then some (isoRender yr m d) else none
    | _, _, _ => none
  | _ => none

/-- Split a string at every `'-'`, the separators of `"%Y-%m-%d"`. -/
def splitOnDash : List Char → List (List Char)
  | [] => [[]]
  | c :: rest =>
    if c = '-' then [] :: splitOnDash rest
    else
      match splitOnDash rest with
      | [] => [[c]]
      | f :: fs => (c :: f) :: fs

/-- The `%Y` field of `strptime`: exactly four digits. -/
def yearField4 : List Char → Option Nat
  | [a, b, c, d] =>
    if isDigitCh a && isDigitCh b && isDigitCh c && isDigitCh d then
      some (1000 * digitVal a + 100 * digitVal b + 10 * digitVal c + digitVal d)
    else none
  | _ => none

/-- `datetime.strptime(s, "%Y-%m-%d")`, used by `get_month_name` and
`get_year` (pdf_to_json.py:90-105). -/
def parseISO (s : List Char) : Option (Nat × Nat × Nat) :=
  match splitOnDash s with
  | [yf, mf, df] =>
    match yearField4 yf, monthField mf, dayField df with
    | some y, some m, some d =>
      if d ≤ daysInMonth y m then some (y, m, d) else none
    | _, _, _ => none
  | _ => none

/-- `strftime("%B")`: the full English month name. -/
def monthEnglishName : Nat → String
  | 1 => "January"
  | 2 => "February"
  | 3 => "March"
  | 4 => "April"
  | 5 => "May"
  | 6 => "June"
  | 7 => "July"
  | 8 => "August"
  | 9 => "September"
  | 10 => "October"
  | 11 => "November"
  | 12 => "December"
  | _ => ""

/-- `get_month_name` (pdf_to_json.py:90-96). -/
def get_month_name (iso : String) : String :=
  match parseISO iso.data with
  | some (_, m, _) => monthEnglishName m
  | none => "Unknown"

/-- `get_year` (pdf_to_json.py:99-105); the `except` branch returns the
current year, passed in as `nowYear`. -/
def get_year (nowYear : Int) (iso : String) : Int :=
  match parseISO iso.data with
  | some (y, _, _) => (y : Int)
  | none => nowYear

-- ### Card-number extraction (pdf_to_json.py:184-194)

/-- The Mastercard-variant marker of the card-number regex. -/
def mastercardTxt : List Char := cs "דראקרטסמ"

/-- The Visa-variant marker of the card-number regex. -/
def visaTxt : List Char := cs "הזיו"

/-- One alternative `(\d{4})\s+<marker>` of the card regex at a fixed
position: four digits, whitespace, the marker literal. -/
def tryCardPat (lit : List Char) : List Char → Option (List Char)
  | a :: b :: c :: d :: rest =>
    if isDigitCh a && isDigitCh b && isDigitCh c && isDigitCh d then
      match munchWS rest with
      | some r =>
        match stripPrefixLit lit r with
        | some _ => some [a, b, c, d]
        | none => none
      | none => none
    else none
  | _ => none

/-- The full alternation `(\d{4})\s+דראקרטסמ|(\d{4})\s+הזיו` at a fixed
position; `match.group(1) or match.group(2)` picks whichever matched. -/
def tryCardAt (s : List Char) : Option (List Char) :=
  match tryCardPat mastercardTxt s with
  | some g => some g
  | none => tryCardPat visaTxt s

/-- `extract_card_number` (pdf_to_json.py:184-194) over the first page's
text (`""` when the document has no pages): leftmost match of the card
pattern, or the placeholder `"0000"`. -/
def extract_card_number (text : List Char) : List Char :=
  match searchAt tryCardAt text with
  | some g => g
  | none => cs "0000"

-- ### Pipeline assembly (pdf_to_json.py:263-357)

/-- One output record of the pipeline (pdf_to_json.py:308-316). -/
structure Expense where
  date : String
  merchant : List Char
  amount : ℚ
  category : String
  month : String
  year : Int
  card : List Char
deriving DecidableEq, Repr

/-- The per-transaction body of the conversion loop (pdf_to_json.py:294-317):
skip transactions whose raw date does not parse, classify the merchant, and
build the expense record. -/
def mkExpense (rules_lower : RuleList) (card : List Char) (nowYear : Int)
    (tx : RawTransaction) : Option Expense :=
  match parse_date tx.raw_date with
  | none => none
  | some iso =>
    some ⟨iso, tx.merchant, tx.amount, categorize_merchant tx.merchant rules_lower,
      get_month_name iso, get_year nowYear iso, card⟩

/-- The insertion-ordered set `uncategorized_merchants`
(pdf_to_json.py:303-306): unique merchants classified `"Uncategorized"`, in
first-occurrence order. -/
def uncatMerchants (exps : List Expense) : List (List Char) :=
  exps.foldl
    (fun acc e =>
      if e.category = "Uncategorized" && !acc.contains e.merchant then
        acc ++ [e.merchant]
      else acc)
    []

/-- The in-place update loop of the interactive flow (pdf_to_json.py:334-336):
every already-produced expense of this merchant gets the chosen category;
nothing else changes. -/
def retagExpenses (merchant : List Char) (category : String)
    (exps : List Expense) : List Expense :=
  exps.map (fun e => if e.merchant = merchant then { e with category := category } else e)

/-- The interactive disambiguation loop (pdf_to_json.py:325-336), with the
terminal prompt abstracted as a resolver returning the chosen category and
the keyword to register (`none` models both the skip option and an empty
merchant default).  Returns the updated expenses and the updated lowercased
rule dict. -/
def interactivePass (resolver : List Char → String × Option (List Char)) :
    List (List Char) → List Expense → RuleList → List Expense × RuleList
  | [], exps, rl => (exps, rl)
  | m :: rest, exps, rl =>
    match resolver m with
    | (_, none) => interactivePass resolver rest exps rl
    | (category, some kw) =>
      interactivePass resolver rest (retagExpenses m category exps)
        (dictInsert (lowerChars kw) category rl)

/-- Lexicographic `≤` on character lists: Python's `<=` on strings compares
code points left to right, which on the equal-length ISO `YYYY-MM-DD` keys
used here coincides with chronological order. -/
def strLeB : List Char → List Char → Bool
  | [], _ => true
  | _ :: _, [] => false
  | a :: as, b :: bs => if a < b then true else if a = b then strLeB as bs else false

/-- Stable insertion into a date-descending list: the new element goes in
front of the first element whose date is not larger, so it follows every
earlier element with the same date. -/
def insertByDateDesc (e : Expense) : List Expense → List Expense
  | [] => [e]
  | x :: xs =>
    if strLeB x.date.data e.date.data then e :: x :: xs
    else x :: insertByDateDesc e xs

/-- `expenses.sort(key=lambda x: x['date'], reverse=True)`
(pdf_to_json.py:346).  Python's sort is stable also under `reverse=True`; a
stable date-descending sort is extensionally unique, so this insertion sort
is a faithful model of it. -/
def sortByDateDesc : List Expense → List Expense
  | [] => []
  | x :: xs => insertByDateDesc x (sortByDateDesc xs)

/-- Everything `convert_pdf_to_json` (pdf_to_json.py:263-343) does before the
final sort: load-preprocess the rules, extract the card number and the raw
transactions, convert them, and optionally run the interactive pass. -/
def pipelineExpenses (rules : RuleList) (firstPage : List Char)
    (pages : List (List (List Char))) (nowYear : Int) (interactive : Bool)
    (resolver : List Char → String × Option (List Char)) : List Expense :=
  let rules_lower := buildRulesLower rules
  let card := extract_card_number firstPage
  let raw := extract_transactions pages
  let expenses := raw.filterMap (mkExpense rules_lower card nowYear)
  if interactive then
    (interactivePass resolver (uncatMerchants expenses) expenses rules_lower).1
  else expenses

/-- `convert_pdf_to_json` (pdf_to_json.py:263-357) without its file I/O: the
final expense sequence, sorted by date descending as the last step. -/
def convert_pdf_to_json (rules : RuleList) (firstPage : List Char)
    (pages : List (List (List Char))) (nowYear : Int) (interactive : Bool)
    (resolver : List Char → String × Option (List Char)) : List Expense :=
  sortByDateDesc (pipelineExpenses rules firstPage pages nowYear interactive resolver)

-- ### Basic lemmas about substring containment

theorem startsWithChars_iff (n h : List Char) :
    startsWithChars n h = true ↔ ∃ q, h = n ++ q := by
  induction n generalizing h with
  | nil => simp [startsWithChars]
  | cons a as ih =>
    cases h with
    | nil => simp [startsWithChars]
    | cons b bs =>
      simp only [startsWithChars, Bool.and_eq_true, decide_eq_true_eq, ih]
      constructor
      · rintro ⟨rfl, q, rfl⟩; exact ⟨q, rfl⟩
      · rintro ⟨q, hq⟩
        injection hq with h1 h2
        exact ⟨h1.symm, q, h2⟩

theorem containsSub_iff (n h : List Char) :
    containsSub n h = true ↔ ∃ p q, h = p ++ n ++ q := by
  induction h with
  | nil =>
    simp only [containsSub, List.isEmpty_iff]
    constructor
    · rintro rfl; exact ⟨[], [], rfl⟩
    · rintro ⟨p, q, hpq⟩
      cases p <;> cases n <;> simp_all
  | cons b bs ih =>
    simp only [containsSub, Bool.or_eq_true, startsWithChars_iff, ih]
    constructor
    · rintro (⟨q, hq⟩ | ⟨p, q, rfl⟩)
      · exact ⟨[], q, by simpa using hq⟩
      · exact ⟨b :: p, q, rfl⟩
    · rintro ⟨p, q, hpq⟩
      cases p with
      | nil => exact Or.inl ⟨q, by simpa using hpq⟩
      | cons x xs =>
        injection hpq with h1 h2
        exact Or.inr ⟨xs, q, h2⟩

-- ### C4 / C5 : the bidi normalizer

/-- **C4.** For every text segment, `fix_hebrew_text` returns the segment
unchanged when it contains no character in the right-to-left range
U+0590–U+05FF, and returns the whole segment reversed character-by-character
when it contains at least one such character; in particular it is the identity
on every string with no right-to-left character. -/
theorem fix_hebrew_text_spec (s : List Char) :
    (s.any isHebrew = false → fix_hebrew_text s = s) ∧
    (s.any isHebrew = true → fix_hebrew_text s = s.reverse) := by
  constructor
  · intro h
    simp [fix_hebrew_text, h]
  · intro h
    have hne : s.isEmpty = false := by
      cases s with
      | nil => simp at h
      | cons a as => rfl
    simp [fix_hebrew_text, h, hne]

/-- **C5.** On a merchant string consisting only of right-to-left-script
characters, the bidi normalizer is self-inverse: applying it twice returns the
original string. -/
theorem fix_hebrew_text_involutive (s : List Char)
    (h : ∀ c ∈ s, isHebrew c = true) :
    fix_hebrew_text (fix_hebrew_text s) = s := by
  cases s with
  | nil => rfl
  | cons a as =>
    have h1 : (a :: as).any isHebrew = true := by
      simp only [List.any_eq_true]
      exact ⟨a, List.mem_cons_self a as, h a (List.mem_cons_self a as)⟩
    have h2 : ((a :: as).reverse).any isHebrew = true := by
      simp only [List.any_eq_true] at h1 ⊢
      obtain ⟨c, hc, hch⟩ := h1
      exact ⟨c, List.mem_reverse.mpr hc, hch⟩
    have e1 : fix_hebrew_text (a :: as) = (a :: as).reverse := by
      unfold fix_hebrew_text
      rw [h1]
      simp
    rw [e1]
    unfold fix_hebrew_text
    rw [h2]
    simp

/-- **C5 witness.** `fix_hebrew_text` is self-inverse on the concrete
pure-Hebrew merchant string `"אבג"`. -/
theorem fix_hebrew_text_involutive_witness :
    fix_hebrew_text (fix_hebrew_text (cs "אבג")) = cs "אבג" :=
  fix_hebrew_text_involutive (cs "אבג") (by decide)

-- ### C2 : classification

/-- **C2.** `categorize_merchant` lowercases the merchant text, scans the
rules in insertion order and returns the category of the first rule whose
keyword occurs as a substring of the lowercased merchant (substring in the
sense `∃ p q, text = p ++ keyword ++ q`), returning `"Uncategorized"` when no
keyword occurs; in particular, with rules
`{"cafe": "Restaurants", "caf": "Food Delivery"}` in that order, merchant
`"Cafe Joe"` is classified `"Restaurants"` (first match wins, not longest
match). -/
theorem categorize_merchant_spec :
    (∀ (m : List Char) (rules : RuleList),
      categorize_merchant m rules =
        match rules.find? (fun kv => containsSub kv.1 (lowerChars m)) with
        | some kv => kv.2
        | none => "Uncategorized") ∧
    (∀ (kw text : List Char),
      containsSub kw text = true ↔ ∃ p q, text = p ++ kw ++ q) ∧
    categorize_merchant (cs "Cafe Joe")
        [(cs "cafe", "Restaurants"), (cs "caf", "Food Delivery")] =
      "Restaurants" := by
  refine ⟨?_, containsSub_iff, by decide⟩
  intro m rules
  induction rules with
  | nil => rfl
  | cons kv rest ih =>
    unfold categorize_merchant at ih ⊢
    cases hkv : containsSub kv.1 (lowerChars m) with
    | true =>
      obtain ⟨k, v⟩ := kv
      simp only [scanRules, List.find?_cons]
      simp_all
    | false =>
      obtain ⟨k, v⟩ := kv
      simp only [scanRules, List.find?_cons]
      simp_all

-- ### C3 : rule-set maintenance

theorem dictInsert_append (k : List Char) (v : String) (rl : RuleList)
    (h : ∀ kv ∈ rl, kv.1 ≠ k) :
    dictInsert k v rl = rl ++ [(k, v)] := by
  induction rl with
  | nil => rfl
  | cons kv rest ih =>
    obtain ⟨k', v'⟩ := kv
    have hne : k' ≠ k := h (k', v') (List.mem_cons_self _ _)
    simp only [dictInsert, if_neg hne, List.cons_append, List.cons.injEq, true_and]
    exact ih (fun kv hkv => h kv (List.mem_cons_of_mem _ hkv))

theorem buildRulesLower_aux (rules : RuleList) :
    ∀ acc : RuleList,
      (∀ kv ∈ acc, ∀ kv' ∈ rules, kv.1 ≠ lowerChars kv'.1) →
      (rules.map (fun kv => lowerChars kv.1)).Nodup →
      rules.foldl (fun a kv => dictInsert (lowerChars kv.1) kv.2 a) acc =
        acc ++ rules.map (fun kv => (lowerChars kv.1, kv.2)) := by
  induction rules with
  | nil => intro acc _ _; simp
  | cons kv rest ih =>
    intro acc hacc hnd
    obtain ⟨k, v⟩ := kv
    simp only [List.foldl_cons]
    have hfresh : ∀ kv' ∈ acc, kv'.1 ≠ lowerChars k :=
      fun kv' h' => hacc kv' h' (k, v) (List.mem_cons_self _ _)
    rw [dictInsert_append _ _ _ hfresh]
    have hnd' : (rest.map (fun kv => lowerChars kv.1)).Nodup := by
      simp only [List.map_cons, List.nodup_cons] at hnd
      exact hnd.2
    have hhd : lowerChars k ∉ rest.map (fun kv => lowerChars kv.1) := by
      simp only [List.map_cons, List.nodup_cons] at hnd
      exact hnd.1
    rw [ih (acc ++ [(lowerChars k, v)]) ?_ hnd']
    · simp
    · intro kv' h' kv'' h''
      rcases List.mem_append.mp h' with h1 | h1
      · exact hacc kv' h1 kv'' (List.mem_cons_of_mem _ h'')
      · simp only [List.mem_singleton] at h1
        subst h1
        intro hcontra
        exact hhd (by
          simp only [List.mem_map]
          exact ⟨kv'', h'', hcontra.symm⟩)

/-- **C3 (amended).** Provided all loaded rule keys are still distinct after
lowercasing, the load pre-processing preserves every rule and its insertion
order (no key is overwritten), and provided an added keyword's lowercase form
is not already a key, the interactive addition `rules_lower[kw.lower()] =
category` appends the new rule at the end of the ordered mapping, after all
pre-existing rules.  (The unamended claim fails exactly when these lowercase
collisions occur: see the counterexample.) -/
theorem rules_no_overwrite_and_append :
    (∀ rules : RuleList,
      (rules.map (fun kv => lowerChars kv.1)).Nodup →
      buildRulesLower rules = rules.map (fun kv => (lowerChars kv.1, kv.2))) ∧
    (∀ (rl : RuleList) (k : List Char) (v : String),
      (∀ kv ∈ rl, kv.1 ≠ k) → dictInsert k v rl = rl ++ [(k, v)]) := by
  constructor
  · intro rules hnd
    unfold buildRulesLower
    rw [buildRulesLower_aux rules [] (by simp) hnd]
    simp
  · exact fun rl k v h => dictInsert_append k v rl h

/-- **C3 witness.** The amended claim at a concrete collision-free rule set
and a concrete fresh keyword. -/
theorem rules_no_overwrite_and_append_witness :
    buildRulesLower [(cs "Cafe", "Restaurants"), (cs "Bar", "Bars")] =
      [(cs "cafe", "Restaurants"), (cs "bar", "Bars")] ∧
    dictInsert (cs "wolt") "Food Delivery" [(cs "cafe", "Restaurants")] =
      [(cs "cafe", "Restaurants"), (cs "wolt", "Food Delivery")] :=
  ⟨(rules_no_overwrite_and_append.1
      [(cs "Cafe", "Restaurants"), (cs "Bar", "Bars")] (by decide)).trans (by decide),
   rules_no_overwrite_and_append.2 [(cs "cafe", "Restaurants")]
      (cs "wolt") "Food Delivery" (by decide)⟩

/-- **C3 counterexample.** The claim as stated is false on the code: two
loaded keys that collide after lowercasing (`"Cafe"`, `"CAFE"`) make the load
pre-processing silently overwrite the earlier rule's category, and an
interactive addition whose lowercased keyword equals an existing key
(`"cafe"`) overwrites that rule's category in place — keeping its original
position — instead of being inserted at the end of the ordered mapping. -/
theorem rules_overwrite_counterexample :
    buildRulesLower [(cs "Cafe", "Restaurants"), (cs "CAFE", "Banking Fees")] =
      [(cs "cafe", "Banking Fees")] ∧
    dictInsert (cs "cafe") "Shopping" [(cs "cafe", "Restaurants"), (cs "bar", "Bars")] =
      [(cs "cafe", "Shopping"), (cs "bar", "Bars")] ∧
    dictInsert (cs "cafe") "Shopping" [(cs "cafe", "Restaurants"), (cs "bar", "Bars")] ≠
      [(cs "cafe", "Restaurants"), (cs "bar", "Bars"), (cs "cafe", "Shopping")] := by
  refine ⟨by decide, by decide, by decide⟩

-- ### C10 : the interactive in-place category update

/-- **C10.** When the interactive flow assigns `category` (with a registered
keyword) to merchant `m`, the update pass maps each already-produced expense
to itself, except that an expense whose merchant equals `m` gets exactly its
`category` field replaced — the record-update form `{ e with category := c }`
leaves every other field of `e` unchanged, as the last conjunct spells out
field by field. -/
theorem retagExpenses_spec (m : List Char) (c : String) (exps : List Expense) :
    (retagExpenses m c exps).length = exps.length ∧
    (∀ (i : Nat) (e : Expense), exps[i]? = some e →
      (retagExpenses m c exps)[i]? =
        some (if e.merchant = m then { e with category := c } else e)) ∧
    (∀ e : Expense,
      ({ e with category := c } : Expense).date = e.date ∧
      ({ e with category := c } : Expense).merchant = e.merchant ∧
      ({ e with category := c } : Expense).amount = e.amount ∧
      ({ e with category := c } : Expense).month = e.month ∧
      ({ e with category := c } : Expense).year = e.year ∧
      ({ e with category := c } : Expense).card = e.card ∧
      ({ e with category := c } : Expense).category = c) := by
  refine ⟨by simp [retagExpenses], ?_, by intro e; exact ⟨rfl, rfl, rfl, rfl, rfl, rfl, rfl⟩⟩
  intro i e he
  simp [retagExpenses, List.getElem?_map, he]

/-- **C10 witness.** The update at a concrete two-expense run: the matching
expense has only its category changed, the other expense is untouched. -/
theorem retagExpenses_spec_witness :
    (retagExpenses (cs "WOLT") "Food Delivery"
        [⟨"2025-11-28", cs "WOLT", 10, "Uncategorized", "November", 2025, cs "9334"⟩,
         ⟨"2025-11-27", cs "PAZ", 20, "Transportation", "November", 2025, cs "9334"⟩])[0]? =
      some ⟨"2025-11-28", cs "WOLT", 10, "Food Delivery", "November", 2025, cs "9334"⟩ ∧
    (retagExpenses (cs "WOLT") "Food Delivery"
        [⟨"2025-11-28", cs "WOLT", 10, "Uncategorized", "November", 2025, cs "9334"⟩,
         ⟨"2025-11-27", cs "PAZ", 20, "Transportation", "November", 2025, cs "9334"⟩])[1]? =
      some ⟨"2025-11-27", cs "PAZ", 20, "Transportation", "November", 2025, cs "9334"⟩ := by
  constructor
  · exact ((retagExpenses_spec (cs "WOLT") "Food Delivery" _).2.1 0
      ⟨"2025-11-28", cs "WOLT", 10, "Uncategorized", "November", 2025, cs "9334"⟩
      (by decide)).trans (by decide)
  · exact ((retagExpenses_spec (cs "WOLT") "Food Delivery" _).2.1 1
      ⟨"2025-11-27", cs "PAZ", 20, "Transportation", "November", 2025, cs "9334"⟩
      (by decide)).trans (by decide)

-- ### C9 : card-number extraction

theorem tryCardPat_shape (lit s g : List Char) (h : tryCardPat lit s = some g) :
    g.length = 4 ∧ g.all isDigitCh = true := by
  unfold tryCardPat at h
  split at h
  · next a b c d rest =>
    split at h
    · next hd =>
      rcases hmw : munchWS rest with _ | r
      · simp [hmw] at h
      · rcases hsp : stripPrefixLit lit r with _ | u
        · simp [hmw, hsp] at h
        · simp only [hmw, hsp, Option.some.injEq] at h
          subst h
          simp only [Bool.and_eq_true] at hd
          obtain ⟨⟨⟨h1, h2⟩, h3⟩, h4⟩ := hd
          simp [List.all, h1, h2, h3, h4]
    · exact absurd h (by simp)
  · exact absurd h (by simp)

theorem tryCardAt_shape (s g : List Char) (h : tryCardAt s = some g) :
    g.length = 4 ∧ g.all isDigitCh = true := by
  unfold tryCardAt at h
  rcases h1 : tryCardPat mastercardTxt s with _ | g1
  · rw [h1] at h
    exact tryCardPat_shape visaTxt s g h
  · rw [h1] at h
    simp only [Option.some.injEq] at h
    subst h
    exact tryCardPat_shape mastercardTxt s g1 h1

theorem searchAt_some {α : Type} (f : List Char → Option α) (s : List Char)
    (g : α) (h : searchAt f s = some g) : ∃ n, f (s.drop n) = some g := by
  induction s with
  | nil => exact ⟨0, h⟩
  | cons c rest ih =>
    unfold searchAt at h
    rcases h0 : f (c :: rest) with _ | r
    · rw [h0] at h
      obtain ⟨n, hn⟩ := ih h
      exact ⟨n + 1, hn⟩
    · rw [h0] at h
      simp only [Option.some.injEq] at h
      subst h
      exact ⟨0, h0⟩

theorem searchAt_none {α : Type} (f : List Char → Option α) (s : List Char)
    (h : ∀ n, f (s.drop n) = none) : searchAt f s = none := by
  induction s with
  | nil => exact h 0
  | cons c rest ih =>
    unfold searchAt
    have h0 : f (c :: rest) = none := by simpa using h 0
    rw [h0]
    exact ih (fun n => by simpa using h (n + 1))

theorem searchAt_first {α : Type} (f : List Char → Option α) (s : List Char)
    (n : Nat) (g : α) (hn : f (s.drop n) = some g)
    (hbefore : ∀ m < n, f (s.drop m) = none) : searchAt f s = some g := by
  induction s generalizing n with
  | nil =>
    simp only [List.drop_nil] at hn
    exact hn
  | cons c rest ih =>
    unfold searchAt
    cases n with
    | zero =>
      simp only [List.drop_zero] at hn
      rw [hn]
    | succ n' =>
      have h0 : f (c :: rest) = none := by
        have := hbefore 0 (Nat.succ_pos n')
        simpa using this
      rw [h0]
      exact ih n' (by simpa using hn)
        (fun m hm => by simpa using hbefore (m + 1) (Nat.succ_lt_succ hm))

-- Helper lemmas tracing an expense of the final output back to a raw
-- transaction: used for the card-field and amount-positivity claims.

theorem mem_insertByDateDesc (x e : Expense) (l : List Expense) :
    x ∈ insertByDateDesc e l ↔ x = e ∨ x ∈ l := by
  induction l with
  | nil => simp [insertByDateDesc]
  | cons y ys ih =>
    unfold insertByDateDesc
    split
    · simp
    · simp only [List.mem_cons, ih]
      tauto

theorem mem_sortByDateDesc (x : Expense) (l : List Expense) :
    x ∈ sortByDateDesc l ↔ x ∈ l := by
  induction l with
  | nil => simp [sortByDateDesc]
  | cons y ys ih =>
    simp only [sortByDateDesc, mem_insertByDateDesc, ih, List.mem_cons]

theorem mem_retagExpenses (m : List Char) (c : String) (exps : List Expense)
    (e : Expense) (h : e ∈ retagExpenses m c exps) :
    ∃ e' ∈ exps, e.date = e'.date ∧ e.merchant = e'.merchant ∧
      e.amount = e'.amount ∧ e.month = e'.month ∧ e.year = e'.year ∧
      e.card = e'.card := by
  unfold retagExpenses at h
  obtain ⟨e', he', heq⟩ := List.mem_map.mp h
  subst heq
  refine ⟨e', he', ?_⟩
  split <;> exact ⟨rfl, rfl, rfl, rfl, rfl, rfl⟩

theorem mem_interactivePass (resolver : List Char → String × Option (List Char))
    (ms : List (List Char)) (exps : List Expense) (rl : RuleList) (e : Expense)
    (h : e ∈ (interactivePass resolver ms exps rl).1) :
    ∃ e' ∈ exps, e.date = e'.date ∧ e.merchant = e'.merchant ∧
      e.amount = e'.amount ∧ e.month = e'.month ∧ e.year = e'.year ∧
      e.card = e'.card := by
  induction ms generalizing exps rl with
  | nil => exact ⟨e, h, rfl, rfl, rfl, rfl, rfl, rfl⟩
  | cons m rest ih =>
    unfold interactivePass at h
    rcases hres : resolver m with ⟨category, kw?⟩
    rw [hres] at h
    cases kw? with
    | none => exact ih exps rl h
    | some kw =>
      obtain ⟨e', he', hfields⟩ := ih _ _ h
      obtain ⟨e'', he'', hfields'⟩ := mem_retagExpenses m category exps e' he'
      refine ⟨e'', he'', ?_⟩
      obtain ⟨h1, h2, h3, h4, h5, h6⟩ := hfields
      obtain ⟨g1, g2, g3, g4, g5, g6⟩ := hfields'
      exact ⟨h1.trans g1, h2.trans g2, h3.trans g3, h4.trans g4,
        h5.trans g5, h6.trans g6⟩

theorem mkExpense_fields (rules_lower : RuleList) (card : List Char)
    (nowYear : Int) (tx : RawTransaction) (e : Expense)
    (h : mkExpense rules_lower card nowYear tx = some e) :
    e.amount = tx.amount ∧ e.card = card ∧ e.merchant = tx.merchant := by
  unfold mkExpense at h
  rcases hpd : parse_date tx.raw_date with _ | iso
  · rw [hpd] at h; exact absurd h (by simp)
  · rw [hpd] at h
    simp only [Option.some.injEq] at h
    subst h
    exact ⟨rfl, rfl, rfl⟩

theorem mem_pipelineExpenses (rules : RuleList) (firstPage : List Char)
    (pages : List (List (List Char))) (nowYear : Int) (interactive : Bool)
    (resolver : List Char → String × Option (List Char)) (e : Expense)
    (h : e ∈ pipelineExpenses rules firstPage pages nowYear interactive resolver) :
    ∃ tx ∈ extract_transactions pages,
      e.amount = tx.amount ∧ e.card = extract_card_number firstPage := by
  unfold pipelineExpenses at h
  have key : ∀ e', e' ∈ (extract_transactions pages).filterMap
      (mkExpense (buildRulesLower rules) (extract_card_number firstPage) nowYear) →
      ∃ tx ∈ extract_transactions pages,
        e'.amount = tx.amount ∧ e'.card = extract_card_number firstPage := by
    intro e' he'
    obtain ⟨tx, htx, hmk⟩ := List.mem_filterMap.mp he'
    obtain ⟨ha, hc, _⟩ := mkExpense_fields _ _ _ _ _ hmk
    exact ⟨tx, htx, ha, hc⟩
  by_cases hint : interactive
  · rw [if_pos hint] at h
    obtain ⟨e', he', _, _, ha, _, _, hc⟩ := mem_interactivePass _ _ _ _ _ h
    obtain ⟨tx, htx, ha', hc'⟩ := key e' he'
    exact ⟨tx, htx, ha.trans ha', hc.trans hc'⟩
  · rw [if_neg hint] at h
    exact key e h

/-- **C9.** The card-number extractor searches the first page's text from
left to right for a 4-digit sequence immediately adjacent (across whitespace)
to one of the two fixed issuer markers, returns the first match found, and
returns the placeholder `"0000"` whenever there is no page text (`""`) or no
match; being a total function it never raises, and its result — hence the
`card` field of every Expense of the pipeline — is always exactly 4 ASCII
digits. -/
theorem extract_card_number_spec :
    (∀ text : List Char,
      (extract_card_number text).length = 4 ∧
      (extract_card_number text).all isDigitCh = true) ∧
    (∀ text : List Char, (∀ n, tryCardAt (text.drop n) = none) →
      extract_card_number text = cs "0000") ∧
    (∀ (text : List Char) (n : Nat) (g : List Char),
      tryCardAt (text.drop n) = some g →
      (∀ m < n, tryCardAt (text.drop m) = none) →
      extract_card_number text = g) ∧
    (∀ (rules : RuleList) (firstPage : List Char)
      (pages : List (List (List Char))) (nowYear : Int) (interactive : Bool)
      (resolver : List Char → String × Option (List Char)),
      ∀ e ∈ convert_pdf_to_json rules firstPage pages nowYear interactive resolver,
        e.card = extract_card_number firstPage) ∧
    extract_card_number (cs "") = cs "0000" := by
  refine ⟨?_, ?_, ?_, ?_, by decide⟩
  · intro text
    unfold extract_card_number
    rcases hs : searchAt tryCardAt text with _ | g
    · exact ⟨by decide, by decide⟩
    · obtain ⟨n, hn⟩ := searchAt_some tryCardAt text g hs
      exact tryCardAt_shape _ g hn
  · intro text h
    unfold extract_card_number
    rw [searchAt_none tryCardAt text h]
  · intro text n g hn hbefore
    unfold extract_card_number
    rw [searchAt_first tryCardAt text n g hn hbefore]
  · intro rules firstPage pages nowYear interactive resolver e he
    rw [convert_pdf_to_json, mem_sortByDateDesc] at he
    obtain ⟨tx, _, _, hc⟩ := mem_pipelineExpenses _ _ _ _ _ _ _ he
    exact hc

/-- **C9 witness.** The extractor on a concrete first-page header: the
leftmost 4-digit group adjacent to the Mastercard marker is returned. -/
theorem extract_card_number_spec_witness :
    extract_card_number (cs "9334 דראקרטסמ ימואל סיטרכל") = cs "9334" :=
  extract_card_number_spec.2.2.1 (cs "9334 דראקרטסמ ימואל סיטרכל") 0 (cs "9334")
    (by decide) (fun m hm => absurd hm (Nat.not_lt_zero m))

-- ### C6 : date parsing

theorem splitOnSlash_ne_nil (s : List Char) : splitOnSlash s ≠ [] := by
  cases s with
  | nil => simp [splitOnSlash]
  | cons c rest =>
    unfold splitOnSlash
    split
    · simp
    · rcases h : splitOnSlash rest with _ | ⟨f, fs⟩ <;> simp

theorem splitOnSlash_noslash (s : List Char) (h : '/' ∉ s) :
    splitOnSlash s = [s] := by
  induction s with
  | nil => rfl
  | cons c rest ih =>
    have hc : ¬ c = '/' := fun hc => h (hc ▸ List.mem_cons_self c rest)
    have hr : '/' ∉ rest := fun hr => h (List.mem_cons_of_mem c hr)
    unfold splitOnSlash
    rw [if_neg hc, ih hr]

theorem splitOnSlash_app2 (b c : List Char) (hb : '/' ∉ b) (hc : '/' ∉ c) :
    splitOnSlash (b ++ '/' :: c) = [b, c] := by
  induction b with
  | nil =>
    simp [splitOnSlash, splitOnSlash_noslash c hc]
  | cons x xs ih =>
    have hx : ¬ x = '/' := fun hx => hb (hx ▸ List.mem_cons_self x xs)
    have hxs : '/' ∉ xs := fun hr => hb (List.mem_cons_of_mem x hr)
    simp [splitOnSlash, hx, ih hxs]

theorem splitOnSlash_app3 (a b c : List Char) (ha : '/' ∉ a) (hb : '/' ∉ b)
    (hc : '/' ∉ c) :
    splitOnSlash (a ++ '/' :: (b ++ '/' :: c)) = [a, b, c] := by
  induction a with
  | nil =>
    have h2 := splitOnSlash_app2 b c hb hc
    simp only [List.cons_append] at h2 ⊢
    simp [splitOnSlash, h2]
  | cons x xs ih =>
    have hx : ¬ x = '/' := fun hx => ha (hx ▸ List.mem_cons_self x xs)
    have hxs : '/' ∉ xs := fun hr => ha (List.mem_cons_of_mem x hr)
    simp only [List.cons_append] at ih ⊢
    simp [splitOnSlash, hx, ih hxs]

theorem splitOnSlash_inv1 (s a : List Char) (h : splitOnSlash s = [a]) :
    s = a := by
  induction s generalizing a with
  | nil => simp [splitOnSlash] at h; simp_all
  | cons c rest ih =>
    unfold splitOnSlash at h
    split at h
    · next hc =>
      simp only [List.cons.injEq] at h
      have hne := splitOnSlash_ne_nil rest
      simp_all
    · next hc =>
      rcases hr : splitOnSlash rest with _ | ⟨f, fs⟩
      · exact absurd hr (splitOnSlash_ne_nil rest)
      · rw [hr] at h
        simp only [List.cons.injEq] at h
        obtain ⟨h1, h2⟩ := h
        have : rest = f := ih f (by rw [hr, h2])
        rw [← h1, this]

theorem splitOnSlash_inv2 (s b c : List Char) (h : splitOnSlash s = [b, c]) :
    s = b ++ '/' :: c := by
  induction s generalizing b with
  | nil => simp [splitOnSlash] at h
  | cons x rest ih =>
    unfold splitOnSlash at h
    split at h
    · next hx =>
      simp only [List.cons.injEq] at h
      obtain ⟨h1, h2⟩ := h
      have : rest = c := splitOnSlash_inv1 rest c h2
      subst hx
      rw [← h1, this]
      rfl
    · next hx =>
      rcases hr : splitOnSlash rest with _ | ⟨f, fs⟩
      · exact absurd hr (splitOnSlash_ne_nil rest)
      · rw [hr] at h
        simp only [List.cons.injEq] at h
        obtain ⟨h1, h2⟩ := h
        have : rest = f ++ '/' :: c := ih f (by rw [hr, h2])
        rw [← h1, this]
        rfl

theorem splitOnSlash_inv3 (s a b c : List Char)
    (h : splitOnSlash s = [a, b, c]) : s = a ++ '/' :: (b ++ '/' :: c) := by
  induction s generalizing a with
  | nil => simp [splitOnSlash] at h
  | cons x rest ih =>
    unfold splitOnSlash at h
    split at h
    · next hx =>
      simp only [List.cons.injEq] at h
      obtain ⟨h1, h2⟩ := h
      have : rest = b ++ '/' :: c := splitOnSlash_inv2 rest b c h2
      subst hx
      rw [← h1, this]
      rfl
    · next hx =>
      rcases hr : splitOnSlash rest with _ | ⟨f, fs⟩
      · exact absurd hr (splitOnSlash_ne_nil rest)
      · rw [hr] at h
        simp only [List.cons.injEq] at h
        obtain ⟨h1, h2⟩ := h
        have : rest = f ++ '/' :: (b ++ '/' :: c) := ih f (by rw [hr, h2])
        rw [← h1, this]
        rfl

theorem isDigitCh_ne_slash (c : Char) (h : isDigitCh c = true) : c ≠ '/' := by
  intro hc
  subst hc
  exact absurd h (by decide)

theorem dayField_noslash (f : List Char) (d : Nat) (h : dayField f = some d) :
    '/' ∉ f := by
  rcases f with _ | ⟨c1, _ | ⟨c2, _ | ⟨c3, rest⟩⟩⟩
  · simp [dayField] at h
  · simp only [dayField] at h
    split at h
    · next hcond =>
      simp only [Bool.and_eq_true, decide_eq_true_eq] at hcond
      intro hmem
      simp only [List.mem_singleton] at hmem
      exact isDigitCh_ne_slash c1 hcond.1 hmem.symm
    · exact absurd h (by simp)
  · simp only [dayField] at h
    split at h
    · next hcond =>
      simp only [Bool.and_eq_true] at hcond
      intro hmem
      simp only [List.mem_cons, List.mem_singleton, List.not_mem_nil, or_false] at hmem
      rcases hmem with h1 | h2
      · exact isDigitCh_ne_slash c1 hcond.1 h1.symm
      · exact isDigitCh_ne_slash c2 hcond.2 h2.symm
    · split at h
      · next hcond =>
        simp only [Bool.and_eq_true, decide_eq_true_eq] at hcond
        intro hmem
        simp only [List.mem_cons, List.mem_singleton, List.not_mem_nil, or_false] at hmem
        rcases hmem with h1 | h2
        · exact absurd (h1.trans hcond.1.1) (by decide)
        · exact isDigitCh_ne_slash c2 hcond.1.2 h2.symm
      · exact absurd h (by simp)
  · simp [dayField] at h

theorem monthField_digits (f : List Char) (m : Nat) (h : monthField f = some m) :
    ∀ c ∈ f, isDigitCh c = true := by
  rcases f with _ | ⟨c1, _ | ⟨c2, _ | ⟨c3, rest⟩⟩⟩
  · simp [monthField] at h
  · simp only [monthField] at h
    split at h
    · next hcond =>
      simp only [Bool.and_eq_true] at hcond
      intro c hc
      simp only [List.mem_singleton] at hc
      subst hc
      exact hcond.1
    · exact absurd h (by simp)
  · simp only [monthField] at h
    split at h
    · next hcond =>
      simp only [Bool.and_eq_true] at hcond
      intro c hc
      simp only [List.mem_cons, List.mem_singleton, List.not_mem_nil, or_false] at hc
      rcases hc with rfl | rfl
      · exact hcond.1
      · exact hcond.2
    · exact absurd h (by simp)
  · simp [monthField] at h

theorem yearField_digits (f : List Char) (y : Nat) (h : yearField f = some y) :
    ∀ c ∈ f, isDigitCh c = true := by
  rcases f with _ | ⟨c1, _ | ⟨c2, _ | ⟨c3, rest⟩⟩⟩
  · simp [yearField] at h
  · simp [yearField] at h
  · simp only [yearField] at h
    split at h
    · next hcond =>
      simp only [Bool.and_eq_true] at hcond
      intro c hc
      simp only [List.mem_cons, List.mem_singleton, List.not_mem_nil, or_false] at hc
      rcases hc with rfl | rfl
      · exact hcond.1
      · exact hcond.2
    · exact absurd h (by simp)
  · simp [yearField] at h

theorem noslash_of_digits (f : List Char) (h : ∀ c ∈ f, isDigitCh c = true) :
    '/' ∉ f :=
  fun hmem => isDigitCh_ne_slash '/' (h '/' hmem) rfl

theorem dayField_twoDig (d : Nat) (h1 : 1 ≤ d) (h2 : d ≤ 31) :
    dayField (twoDig d) = some d := by
  interval_cases d <;> decide

theorem monthField_twoDig (m : Nat) (h1 : 1 ≤ m) (h2 : m ≤ 12) :
    monthField (twoDig m) = some m := by
  interval_cases m <;> decide

theorem yearField_twoDig (y : Nat) (h : y ≤ 99) :
    yearField (twoDig y) = some y := by
  interval_cases y <;> decide

theorem parse_date_char (s : List Char) (r : String) :
    parse_date s = some r ↔
      ∃ df mf yf d m y,
        s = df ++ '/' :: (mf ++ '/' :: yf) ∧
        dayField df = some d ∧ monthField mf = some m ∧ yearField yf = some y ∧
        d ≤ daysInMonth (pivotYear y) m ∧
        r = isoRender (pivotYear y) m d := by
  constructor
  · intro h
    unfold parse_date at h
    split at h
    · next df mf yf heq =>
      rcases hd : dayField df with _ | d
      · rw [hd] at h; simp at h
      · rcases hm : monthField mf with _ | m
        · rw [hd, hm] at h; simp at h
        · rcases hy : yearField yf with _ | y
          · rw [hd, hm, hy] at h; simp at h
          · rw [hd, hm, hy] at h
            simp only at h
            split at h
            · next hle =>
              simp only [Option.some.injEq] at h
              exact ⟨df, mf, yf, d, m, y, splitOnSlash_inv3 s df mf yf heq,
                hd, hm, hy, hle, h.symm⟩
            · exact absurd h (by simp)
    · exact absurd h (by simp)
  · rintro ⟨df, mf, yf, d, m, y, rfl, hd, hm, hy, hle, rfl⟩
    have h3 : splitOnSlash (df ++ '/' :: (mf ++ '/' :: yf)) = [df, mf, yf] :=
      splitOnSlash_app3 df mf yf
        (dayField_noslash df d hd)
        (noslash_of_digits mf (monthField_digits mf m hm))
        (noslash_of_digits yf (yearField_digits yf y hy))
    unfold parse_date
    rw [h3]
    simp only [hd, hm, hy]
    rw [if_pos hle]

/-- **C6 (amended).** `parse_date` returns `some` exactly on the strings that
`strptime("%d/%m/%y")` accepts: three slash-separated fields where — beyond
the claim's strict `DD/MM/YY` wording — the day may be written with one
digit, two digits, or a space followed by a nonzero digit (strptime `%d`'s
ctime-padding alternative), the month with one digit or two, the year has
exactly two digits, and the named day exists in the named month of the
pivoted year; the result is then the ISO `YYYY-MM-DD` rendering, and on every
other string (including shape matches naming an invalid calendar date, such
as `"31/02/24"`) the result is `none`, never an exception (the function is
total).  In particular every valid calendar date in strict two-digit
`DD/MM/YY` form is accepted and rendered, and the unpadded `"1/2/24"` and
space-padded `" 1/2/24"` variants are both accepted as 2024-02-01. -/
theorem parse_date_spec :
    (∀ (s : List Char) (r : String),
      parse_date s = some r ↔
        ∃ df mf yf d m y,
          s = df ++ '/' :: (mf ++ '/' :: yf) ∧
          dayField df = some d ∧ monthField mf = some m ∧ yearField yf = some y ∧
          d ≤ daysInMonth (pivotYear y) m ∧
          r = isoRender (pivotYear y) m d) ∧
    (∀ d m y : Nat, 1 ≤ d → 1 ≤ m → m ≤ 12 → y ≤ 99 →
      d ≤ daysInMonth (pivotYear y) m →
      parse_date (twoDig d ++ '/' :: (twoDig m ++ '/' :: twoDig y)) =
        some (isoRender (pivotYear y) m d)) ∧
    parse_date (cs "31/02/24") = none ∧
    parse_date (cs " 1/2/24") = some "2024-02-01" := by
  refine ⟨parse_date_char, ?_, by decide, by decide⟩
  intro d m y hd1 hm1 hm2 hy hle
  have hd31 : d ≤ 31 := le_trans hle (by unfold daysInMonth; split <;> [split; skip] <;> [decide; decide; split <;> [decide; decide]])
  exact (parse_date_char _ _).mpr
    ⟨twoDig d, twoDig m, twoDig y, d, m, y, rfl,
      dayField_twoDig d hd1 hd31, monthField_twoDig m hm1 hm2,
      yearField_twoDig y hy, hle, rfl⟩

/-- **C6 counterexample.** The claim says `parse_date` returns `none` on any
string that is not a valid calendar date in `DD/MM/YY` format; but the
underlying `strptime` also accepts single-digit day and month fields:
`"1/2/24"` is not of the two-digit `DD/MM/YY` shape (it is 6 characters, not
8), yet `parse_date` accepts it and returns `"2024-02-01"`. -/
theorem parse_date_counterexample :
    parse_date (cs "1/2/24") = some "2024-02-01" ∧
    ¬ ∃ df mf yf : List Char,
        cs "1/2/24" = df ++ '/' :: (mf ++ '/' :: yf) ∧
        df.length = 2 ∧ mf.length = 2 ∧ yf.length = 2 := by
  constructor
  · decide
  · rintro ⟨df, mf, yf, heq, h2, h3, h4⟩
    have := congrArg List.length heq
    simp only [List.length_append, List.length_cons, h2, h3, h4] at this
    simp [cs] at this

/-- **C6 witness.** The amended claim's positive direction at the concrete
date 28/11/25. -/
theorem parse_date_spec_witness :
    parse_date (cs "28/11/25") = some "2025-11-28" := by
  have h := parse_date_spec.2.1 28 11 25 (by decide) (by decide) (by decide)
    (by decide) (by decide)
  have e : twoDig 28 ++ '/' :: (twoDig 11 ++ '/' :: twoDig 25) = cs "28/11/25" := by
    decide
  rw [e] at h
  exact h.trans (by decide)

-- ### C8 : the final date-descending stable sort

theorem strLeB_refl (s : List Char) : strLeB s s = true := by
  induction s with
  | nil => rfl
  | cons a as ih =>
    unfold strLeB
    rw [if_neg (lt_irrefl a), if_pos rfl]
    exact ih

theorem strLeB_total (a b : List Char) :
    strLeB a b = true ∨ strLeB b a = true := by
  induction a generalizing b with
  | nil => exact Or.inl rfl
  | cons x xs ih =>
    cases b with
    | nil => exact Or.inr rfl
    | cons y ys =>
      rcases lt_trichotomy x y with hlt | heq | hgt
      · left
        unfold strLeB
        rw [if_pos hlt]
      · subst heq
        rcases ih ys with h | h
        · left
          unfold strLeB
          rw [if_neg (lt_irrefl x), if_pos rfl]
          exact h
        · right
          unfold strLeB
          rw [if_neg (lt_irrefl x), if_pos rfl]
          exact h
      · right
        unfold strLeB
        rw [if_pos hgt]

theorem strLeB_trans (a b c : List Char) (h1 : strLeB a b = true)
    (h2 : strLeB b c = true) : strLeB a c = true := by
  induction a generalizing b c with
  | nil => rfl
  | cons x xs ih =>
    cases b with
    | nil => exact absurd h1 (by simp [strLeB])
    | cons y ys =>
      cases c with
      | nil => exact absurd h2 (by simp [strLeB])
      | cons z zs =>
        unfold strLeB at h1 h2 ⊢
        by_cases hxy : x < y
        · rw [if_pos hxy] at h1
          by_cases hyz : y < z
          · rw [if_pos (lt_trans hxy hyz)]
          · rw [if_neg hyz] at h2
            by_cases hyz' : y = z
            · subst hyz'
              rw [if_pos hxy]
            · rw [if_neg hyz'] at h2
              exact absurd h2 (by simp)
        · rw [if_neg hxy] at h1
          by_cases hxy' : x = y
          · subst hxy'
            rw [if_pos rfl] at h1
            by_cases hxz : x < z
            · rw [if_pos hxz]
            · rw [if_neg hxz] at h2 ⊢
              by_cases hxz' : x = z
              · rw [if_pos hxz'] at h2 ⊢
                exact ih ys zs h1 h2
              · rw [if_neg hxz'] at h2
                exact absurd h2 (by simp)
          · rw [if_neg hxy'] at h1
            exact absurd h1 (by simp)

theorem pairwise_insertByDateDesc (e : Expense) (l : List Expense)
    (h : l.Pairwise (fun a b => strLeB b.date.data a.date.data = true)) :
    (insertByDateDesc e l).Pairwise
      (fun a b => strLeB b.date.data a.date.data = true) := by
  induction l with
  | nil => simp [insertByDateDesc]
  | cons x xs ih =>
    unfold insertByDateDesc
    rcases List.pairwise_cons.mp h with ⟨hx, hxs⟩
    split
    · next hcond =>
      refine List.pairwise_cons.mpr ⟨?_, h⟩
      intro b hb
      rcases List.mem_cons.mp hb with rfl | hb'
      · exact hcond
      · exact strLeB_trans b.date.data x.date.data e.date.data (hx b hb') hcond
    · next hcond =>
      refine List.pairwise_cons.mpr ⟨?_, ih hxs⟩
      intro b hb
      rcases (mem_insertByDateDesc b e xs).mp hb with rfl | hb'
      · rcases strLeB_total x.date.data b.date.data with h' | h'
        · exact absurd h' hcond
        · exact h'
      · exact hx b hb'

theorem sortByDateDesc_pairwise (l : List Expense) :
    (sortByDateDesc l).Pairwise
      (fun a b => strLeB b.date.data a.date.data = true) := by
  induction l with
  | nil => simp [sortByDateDesc]
  | cons x xs ih => exact pairwise_insertByDateDesc x (sortByDateDesc xs) ih

theorem filter_insertByDateDesc (e : Expense) (l : List Expense) (dt : String) :
    (insertByDateDesc e l).filter (fun x => x.date == dt) =
      if e.date == dt then e :: l.filter (fun x => x.date == dt)
      else l.filter (fun x => x.date == dt) := by
  induction l with
  | nil =>
    unfold insertByDateDesc
    rcases hbeq : (e.date == dt) with _ | _ <;> simp [List.filter, hbeq]
  | cons x xs ih =>
    unfold insertByDateDesc
    split
    · next hcond =>
      rcases hbeq : (e.date == dt) with _ | _ <;> simp [List.filter, hbeq]
    · next hcond =>
      rcases hbeq : (e.date == dt) with _ | _
      · rcases hxbeq : (x.date == dt) with _ | _ <;>
          simp [List.filter, hxbeq, hbeq, ih]
      · have hne : (x.date == dt) = false := by
          have hdt : e.date = dt := eq_of_beq hbeq
          rcases hx : (x.date == dt) with _ | _
          · rfl
          · have hxe : x.date = e.date := (eq_of_beq hx).trans hdt.symm
            have : strLeB x.date.data e.date.data = true := by
              rw [hxe]
              exact strLeB_refl _
            exact absurd this hcond
        simp [List.filter, hne, hbeq, ih]

theorem sortByDateDesc_filter (l : List Expense) (dt : String) :
    (sortByDateDesc l).filter (fun x => x.date == dt) =
      l.filter (fun x => x.date == dt) := by
  induction l with
  | nil => rfl
  | cons x xs ih =>
    unfold sortByDateDesc
    rw [filter_insertByDateDesc]
    rcases hbeq : (x.date == dt) with _ | _ <;> simp [List.filter, hbeq, ih]

/-- **C8.** The pipeline's final expense sequence is sorted by date
descending (for every pair of entries, the later one in the list has a date
lexicographically — i.e., for ISO dates, chronologically — no larger than the
earlier one), and the sort is stable: for every date, the subsequence of
expenses bearing that date is exactly the one of the pre-sort sequence, in
original extraction order.  In particular the two-record example sorts the
2024-01-20 entry before the 2024-01-05 entry. -/
theorem convert_sorted_stable :
    (∀ (rules : RuleList) (firstPage : List Char)
      (pages : List (List (List Char))) (nowYear : Int) (interactive : Bool)
      (resolver : List Char → String × Option (List Char)),
      (convert_pdf_to_json rules firstPage pages nowYear interactive
          resolver).Pairwise
        (fun a b => strLeB b.date.data a.date.data = true)) ∧
    (∀ (rules : RuleList) (firstPage : List Char)
      (pages : List (List (List Char))) (nowYear : Int) (interactive : Bool)
      (resolver : List Char → String × Option (List Char)) (dt : String),
      (convert_pdf_to_json rules firstPage pages nowYear interactive
          resolver).filter (fun e => e.date == dt) =
        (pipelineExpenses rules firstPage pages nowYear interactive
          resolver).filter (fun e => e.date == dt)) ∧
    sortByDateDesc
        [⟨"2024-01-05", cs "A", 10, "Other", "January", 2024, cs "9334"⟩,
         ⟨"2024-01-20", cs "B", 20, "Other", "January", 2024, cs "9334"⟩] =
      [⟨"2024-01-20", cs "B", 20, "Other", "January", 2024, cs "9334"⟩,
       ⟨"2024-01-05", cs "A", 10, "Other", "January", 2024, cs "9334"⟩] := by
  refine ⟨?_, ?_, by decide⟩
  · intro rules firstPage pages nowYear interactive resolver
    exact sortByDateDesc_pairwise _
  · intro rules firstPage pages nowYear interactive resolver dt
    exact sortByDateDesc_filter _ dt

-- ### C7 : strict positivity of amounts

theorem process_line_pos (line : List Char) (tx : RawTransaction)
    (h : process_line line = some tx) : 0 < tx.amount := by
  unfold process_line at h
  split at h
  · exact absurd h (by simp)
  · rcases hs : searchLine line with _ | ⟨g1, m, dt⟩
    · rw [hs] at h; exact absurd h (by simp)
    · rw [hs] at h
      simp only at h
      rcases hp : parseFloat (g1.filter (fun c => c ≠ ',')) with _ | q
      · rw [hp] at h; exact absurd h (by simp)
      · rw [hp] at h
        simp only at h
        split at h
        · exact absurd h (by simp)
        · next hq =>
          simp only [Option.some.injEq] at h
          subst h
          exact lt_of_not_le hq

theorem mem_extract_transactions (pages : List (List (List Char)))
    (tx : RawTransaction) (h : tx ∈ extract_transactions pages) :
    ∃ line : List Char, process_line line = some tx := by
  unfold extract_transactions at h
  rw [List.mem_flatten] at h
  obtain ⟨l, hl, htx⟩ := h
  rw [List.mem_map] at hl
  obtain ⟨lines, _, rfl⟩ := hl
  rw [List.mem_filterMap] at htx
  obtain ⟨line, _, hline⟩ := htx
  exact ⟨line, hline⟩

/-- **C7.** Every expense produced by the pipeline has a strictly positive
amount: a line whose charge amount parses to a value `≤ 0` after sign and
comma normalization is discarded entirely — no `RawTransaction` and no
`Expense` is emitted for it — and in particular the `"0.00"` variant of the
example line yields nothing. -/
theorem amounts_positive :
    (∀ (line : List Char) (tx : RawTransaction),
      process_line line = some tx → 0 < tx.amount) ∧
    (∀ (pages : List (List (List Char))) (tx : RawTransaction),
      tx ∈ extract_transactions pages → 0 < tx.amount) ∧
    (∀ (rules : RuleList) (firstPage : List Char)
      (pages : List (List (List Char))) (nowYear : Int) (interactive : Bool)
      (resolver : List Char → String × Option (List Char)),
      ∀ e ∈ convert_pdf_to_json rules firstPage pages nowYear interactive resolver,
        0 < e.amount) ∧
    process_line (cs "0.00 הליגר הקסע 10.00 MerchantX 28/11/25") = none := by
  refine ⟨process_line_pos, ?_, ?_, by decide⟩
  · intro pages tx htx
    obtain ⟨line, hline⟩ := mem_extract_transactions pages tx htx
    exact process_line_pos line tx hline
  · intro rules firstPage pages nowYear interactive resolver e he
    rw [convert_pdf_to_json, mem_sortByDateDesc] at he
    obtain ⟨tx, htx, ha, _⟩ := mem_pipelineExpenses _ _ _ _ _ _ _ he
    obtain ⟨line, hline⟩ := mem_extract_transactions pages tx htx
    rw [ha]
    exact process_line_pos line tx hline

/-- **C7 witness.** The positivity theorem applied to the concrete matching
line of the specification's example. -/
theorem amounts_positive_witness :
    process_line (cs "10.00 הליגר הקסע 10.00 MerchantX 28/11/25") =
      some ⟨cs "28/11/25", cs "MerchantX", 10⟩ ∧
    0 < (RawTransaction.mk (cs "28/11/25") (cs "MerchantX") 10).amount :=
  ⟨by decide, amounts_positive.1 (cs "10.00 הליגר הקסע 10.00 MerchantX 28/11/25")
    (RawTransaction.mk (cs "28/11/25") (cs "MerchantX") 10) (by decide)⟩

-- ### C1 : the single-charge grammar

theorem isWS_not_isDC (c : Char) (h : isWS c = true) : isDC c = false := by
  simp only [isWS, Bool.or_eq_true, decide_eq_true_eq] at h
  rcases h with ((((rfl | rfl) | rfl) | rfl) | rfl) | rfl <;> decide

theorem isWS_ne_dot (c : Char) (h : isWS c = true) : c ≠ '.' := by
  simp only [isWS, Bool.or_eq_true, decide_eq_true_eq] at h
  rcases h with ((((rfl | rfl) | rfl) | rfl) | rfl) | rfl <;> decide

theorem isWS_not_isDigit (c : Char) (h : isWS c = true) : isDigitCh c = false := by
  simp only [isWS, Bool.or_eq_true, decide_eq_true_eq] at h
  rcases h with ((((rfl | rfl) | rfl) | rfl) | rfl) | rfl <;> decide

theorem isDC_not_isWS (c : Char) (h : isDC c = true) : isWS c = false := by
  rcases hws : isWS c with _ | _
  · rfl
  · rw [isWS_not_isDC c hws] at h
    exact absurd h (by simp)

theorem isDC_ne_minus (c : Char) (h : isDC c = true) : c ≠ '-' := by
  intro hc
  subst hc
  exact absurd h (by decide)

theorem isDigit_not_isWS (c : Char) (h : isDigitCh c = true) : isWS c = false := by
  rcases hws : isWS c with _ | _
  · rfl
  · rw [isWS_not_isDigit c hws] at h
    exact absurd h (by simp)

theorem takeWhile_dropWhile_exact (p : Char → Bool) (a b : List Char)
    (ha : ∀ c ∈ a, p c = true) (hb : ∀ c, b.head? = some c → p c = false) :
    (a ++ b).takeWhile p = a ∧ (a ++ b).dropWhile p = b := by
  induction a with
  | nil =>
    cases b with
    | nil => exact ⟨rfl, rfl⟩
    | cons c bs =>
      have hc := hb c rfl
      simp [List.takeWhile, List.dropWhile, hc]
  | cons x xs ih =>
    have hx := ha x (List.mem_cons_self x xs)
    have ihr := ih (fun c hc => ha c (List.mem_cons_of_mem x hc))
    simp only [List.cons_append, List.takeWhile_cons, List.dropWhile_cons, hx,
      if_true]
    exact ⟨by rw [ihr.1], ihr.2⟩

theorem munchNum_exact (d1 dot rest : List Char)
    (hd1ne : d1 ≠ []) (hd1 : ∀ c ∈ d1, isDC c = true)
    (hdot : dot = [] ∨ ∃ fr, dot = '.' :: fr ∧ ∀ c ∈ fr, isDigitCh c = true)
    (hrest : ∀ c, rest.head? = some c → isWS c = true) :
    munchNum (d1 ++ (dot ++ rest)) = some (d1 ++ dot, rest) := by
  have hstop : ∀ c, (dot ++ rest).head? = some c → isDC c = false := by
    intro c hc
    rcases hdot with rfl | ⟨fr, rfl, _⟩
    · simp only [List.nil_append] at hc
      exact isWS_not_isDC c (hrest c hc)
    · simp only [List.cons_append, List.head?_cons, Option.some.injEq] at hc
      subst hc
      decide
  obtain ⟨htake, hdrop⟩ := takeWhile_dropWhile_exact isDC d1 (dot ++ rest) hd1 hstop
  unfold munchNum
  simp only [htake, hdrop, List.isEmpty_iff]
  rw [if_neg hd1ne]
  rcases hdot with rfl | ⟨fr, rfl, hfr⟩
  · simp only [List.nil_append, List.append_nil]
    cases rest with
    | nil => rfl
    | cons c rs =>
      have hc : isWS c = true := hrest c rfl
      have hne : ¬ c = '.' := isWS_ne_dot c hc
      simp [hne]
  · have hstop2 : ∀ c, rest.head? = some c → isDigitCh c = false :=
      fun c hc => isWS_not_isDigit c (hrest c hc)
    obtain ⟨ht2, hd2⟩ := takeWhile_dropWhile_exact isDigitCh fr rest hfr hstop2
    simp [List.cons_append, ht2, hd2]

theorem munchSignedNum_exact (sgn d1 dot rest : List Char)
    (hsgn : sgn = [] ∨ sgn = ['-'])
    (hd1ne : d1 ≠ []) (hd1 : ∀ c ∈ d1, isDC c = true)
    (hdot : dot = [] ∨ ∃ fr, dot = '.' :: fr ∧ ∀ c ∈ fr, isDigitCh c = true)
    (hrest : ∀ c, rest.head? = some c → isWS c = true) :
    munchSignedNum (sgn ++ (d1 ++ (dot ++ rest))) =
      some (sgn ++ (d1 ++ dot), rest) := by
  have hnum := munchNum_exact d1 dot rest hd1ne hd1 hdot hrest
  rcases hsgn with rfl | rfl
  · cases d1 with
    | nil => exact absurd rfl hd1ne
    | cons c cs' =>
      have hc : isDC c = true := hd1 c (List.mem_cons_self c cs')
      have hne : ¬ c = '-' := isDC_ne_minus c hc
      simp only [List.nil_append, List.cons_append] at hnum ⊢
      simp only [munchSignedNum]
      rw [if_neg hne]
      exact hnum
  · simp only [List.cons_append, List.nil_append]
    simp only [munchSignedNum]
    simp [hnum]

theorem munchWS_exact (w rest : List Char) (hw : w ≠ [])
    (hall : ∀ c ∈ w, isWS c = true)
    (hrest : ∀ c, rest.head? = some c → isWS c = false) :
    munchWS (w ++ rest) = some rest := by
  obtain ⟨htake, hdrop⟩ := takeWhile_dropWhile_exact isWS w rest hall hrest
  unfold munchWS
  simp only [htake, hdrop, List.isEmpty_iff]
  rw [if_neg hw]

theorem stripPrefixLit_self (lit rest : List Char) :
    stripPrefixLit lit (lit ++ rest) = some rest := by
  induction lit with
  | nil => rfl
  | cons c cs' ih =>
    simp only [List.cons_append]
    unfold stripPrefixLit
    rw [if_pos rfl]
    exact ih

theorem stripPrefixLit_none_of_idx (a b rest : List Char) (i : Nat)
    (hia : i < a.length) (hib : i < b.length)
    (hpre : ∀ j, j < i → a[j]? = b[j]?)
    (hne : a[i]? ≠ b[i]?) :
    stripPrefixLit a (b ++ rest) = none := by
  induction a generalizing b i with
  | nil => exact absurd hia (by simp)
  | cons x xs ih =>
    cases b with
    | nil => exact absurd hib (by simp)
    | cons y ys =>
      simp only [List.cons_append]
      unfold stripPrefixLit
      cases i with
      | zero =>
        have hxy : ¬ x = y := by
          intro hxy
          subst hxy
          simp at hne
        rw [if_neg hxy]
      | succ j =>
        have hxy : x = y := by
          have := hpre 0 (Nat.succ_pos j)
          simpa using this
        rw [if_pos hxy]
        exact ih ys j (by simpa using hia) (by simpa using hib)
          (fun k hk => by simpa using hpre (k + 1) (Nat.succ_lt_succ hk))
          (by simpa using hne)

theorem searchAt_head {α : Type} (f : List Char → Option α) (s : List Char)
    (r : α) (h : f s = some r) : searchAt f s = some r := by
  cases s with
  | nil => exact h
  | cons c rest =>
    unfold searchAt
    rw [h]

theorem munchKW_regular (kw rest : List Char) (h : kw ∈ regularKWs) :
    munchKW regularKWs (kw ++ rest) = some rest := by
  have n12 : stripPrefixLit (cs "הליגר הקסע") (cs "ל\"וח לקייס" ++ rest) = none :=
    stripPrefixLit_none_of_idx _ _ rest 0 (by decide) (by decide)
      (by decide) (by decide)
  have n13 : stripPrefixLit (cs "הליגר הקסע") (cs "הקסע רגילה" ++ rest) = none :=
    stripPrefixLit_none_of_idx _ _ rest 1 (by decide) (by decide)
      (by decide) (by decide)
  have n23 : stripPrefixLit (cs "ל\"וח לקייס") (cs "הקסע רגילה" ++ rest) = none :=
    stripPrefixLit_none_of_idx _ _ rest 0 (by decide) (by decide)
      (by decide) (by decide)
  have n14 : stripPrefixLit (cs "הליגר הקסע") (cs "ל\"חו לקייס" ++ rest) = none :=
    stripPrefixLit_none_of_idx _ _ rest 0 (by decide) (by decide)
      (by decide) (by decide)
  have n24 : stripPrefixLit (cs "ל\"וח לקייס") (cs "ל\"חו לקייס" ++ rest) = none :=
    stripPrefixLit_none_of_idx _ _ rest 2 (by decide) (by decide)
      (by decide) (by decide)
  have n34 : stripPrefixLit (cs "הקסע רגילה") (cs "ל\"חו לקייס" ++ rest) = none :=
    stripPrefixLit_none_of_idx _ _ rest 0 (by decide) (by decide)
      (by decide) (by decide)
  simp only [regularKWs, List.mem_cons, List.not_mem_nil, or_false] at h
  rcases h with rfl | rfl | rfl | rfl
  · simp [munchKW, regularKWs, stripPrefixLit_self]
  · simp [munchKW, regularKWs, n12, stripPrefixLit_self]
  · simp [munchKW, regularKWs, n13, n23, stripPrefixLit_self]
  · simp [munchKW, regularKWs, n14, n24, n34, stripPrefixLit_self]

theorem regularKW_head (kw : List Char) (h : kw ∈ regularKWs) :
    ∀ c, kw.head? = some c → isWS c = false := by
  simp only [regularKWs, List.mem_cons, List.not_mem_nil, or_false] at h
  rcases h with rfl | rfl | rfl | rfl
  · intro c hc
    have hc' : some 'ה' = some c := hc
    injection hc' with hc''
    subst hc''
    decide
  · intro c hc
    have hc' : some 'ל' = some c := hc
    injection hc' with hc''
    subst hc''
    decide
  · intro c hc
    have hc' : some 'ה' = some c := hc
    injection hc' with hc''
    subst hc''
    decide
  · intro c hc
    have hc' : some 'ל' = some c := hc
    injection hc' with hc''
    subst hc''
    decide

theorem matchDate_head (s g r : List Char) (h : matchDate s = some (g, r)) :
    ∃ a, s.head? = some a ∧ isDigitCh a = true := by
  unfold matchDate at h
  split at h
  · next a b s1 c d s2 e f rest =>
    split at h
    · next hcond =>
      simp only [Bool.and_eq_true] at hcond
      obtain ⟨⟨⟨⟨⟨⟨⟨h1, h2⟩, ha⟩, hb⟩, hc⟩, hd⟩, he⟩, hf⟩ := hcond
      exact ⟨a, rfl, ha⟩
    · exact absurd h (by simp)
  · exact absurd h (by simp)

theorem head_all (p : Char → Bool) (a b : List Char) (hne : a ≠ [])
    (hall : ∀ c ∈ a, p c = true) :
    ∀ c, (a ++ b).head? = some c → p c = true := by
  cases a with
  | nil => exact absurd rfl hne
  | cons x xs =>
    intro c hc
    simp only [List.cons_append, List.head?_cons, Option.some.injEq] at hc
    subst hc
    exact hall x (List.mem_cons_self x xs)

theorem head_all_not (p : Char → Bool) (a b : List Char) (hne : a ≠ [])
    (hall : ∀ c, a.head? = some c → p c = false) :
    ∀ c, (a ++ b).head? = some c → p c = false := by
  cases a with
  | nil => exact absurd rfl hne
  | cons x xs =>
    intro c hc
    simp only [List.cons_append, List.head?_cons, Option.some.injEq] at hc
    subst hc
    exact hall x rfl

theorem merchantScan_run (ws4 dt : List Char)
    (hws4ne : ws4 ≠ []) (hws4 : ∀ c ∈ ws4, isWS c = true)
    (hdt : matchDate dt = some (dt, [])) :
    ∀ (merch acc : List Char), merch ≠ [] → '\n' ∉ merch →
    (∀ k, k < merch.length → 1 ≤ k →
      tryWSDate (merch.drop k ++ (ws4 ++ dt)) = none) →
    merchantScan acc (merch ++ (ws4 ++ dt)) = some (acc.reverse ++ merch, dt, []) := by
  have hbreak : tryWSDate (ws4 ++ dt) = some (dt, []) := by
    obtain ⟨a, ha, hadig⟩ := matchDate_head dt dt [] hdt
    have hstop : ∀ x, dt.head? = some x → isWS x = false := by
      intro x hx
      rw [ha] at hx
      injection hx with hx'
      subst hx'
      exact isDigit_not_isWS a hadig
    obtain ⟨ht, hd⟩ := takeWhile_dropWhile_exact isWS ws4 dt hws4 hstop
    unfold tryWSDate
    simp only [ht, hd, List.isEmpty_iff]
    rw [if_neg hws4ne]
    exact hdt
  have merchantScan_cons : ∀ (acc2 : List Char) (c : Char) (rest : List Char),
      merchantScan acc2 (c :: rest) =
        if c = '\n' then none
        else
          match tryWSDate rest with
          | some (dtx, r) => some ((c :: acc2).reverse, dtx, r)
          | none => merchantScan (c :: acc2) rest :=
    fun _ _ _ => rfl
  intro merch
  induction merch with
  | nil => intro acc hm _ _; exact absurd rfl hm
  | cons c m' ih =>
    intro acc _ hnl hnoearly
    have hcnl : ¬ c = '\n' := fun hc => hnl (hc ▸ List.mem_cons_self c m')
    cases m' with
    | nil =>
      simp only [List.cons_append, List.nil_append]
      rw [merchantScan_cons, if_neg hcnl, hbreak]
      simp
    | cons c2 m'' =>
      have h1 : tryWSDate (c2 :: (m'' ++ (ws4 ++ dt))) = none := by
        have h0 := hnoearly 1 (by simp) (by omega)
        simpa using h0
      have hnl' : '\n' ∉ c2 :: m'' := fun hm => hnl (List.mem_cons_of_mem c hm)
      have hnoearly' : ∀ k, k < (c2 :: m'').length → 1 ≤ k →
          tryWSDate ((c2 :: m'').drop k ++ (ws4 ++ dt)) = none := by
        intro k hk hk1
        have h0 := hnoearly (k + 1) (by simpa using Nat.succ_lt_succ hk) (by omega)
        simpa using h0
      have ihres := ih (c :: acc) (by simp) hnl' hnoearly'
      simp only [List.cons_append] at ihres ⊢
      rw [merchantScan_cons, if_neg hcnl, h1]
      simp [ihres]

theorem tryRegular_exact
    (sgn d1 dot ws1 kw ws2 e1 edot ws3 merch ws4 dt : List Char)
    (hsgn : sgn = [] ∨ sgn = ['-'])
    (hd1ne : d1 ≠ []) (hd1 : ∀ c ∈ d1, isDC c = true)
    (hdot : dot = [] ∨ ∃ fr, dot = '.' :: fr ∧ ∀ c ∈ fr, isDigitCh c = true)
    (hws1ne : ws1 ≠ []) (hws1 : ∀ c ∈ ws1, isWS c = true)
    (hkw : kw ∈ regularKWs)
    (hws2ne : ws2 ≠ []) (hws2 : ∀ c ∈ ws2, isWS c = true)
    (he1ne : e1 ≠ []) (he1 : ∀ c ∈ e1, isDC c = true)
    (hedot : edot = [] ∨ ∃ fr, edot = '.' :: fr ∧ ∀ c ∈ fr, isDigitCh c = true)
    (hws3ne : ws3 ≠ []) (hws3 : ∀ c ∈ ws3, isWS c = true)
    (hmne : merch ≠ []) (hmnl : '\n' ∉ merch)
    (hmhead : ∀ c, merch.head? = some c → isWS c = false)
    (hws4ne : ws4 ≠ []) (hws4 : ∀ c ∈ ws4, isWS c = true)
    (hdt : matchDate dt = some (dt, []))
    (hnoearly : ∀ k, k < merch.length → 1 ≤ k →
      tryWSDate (merch.drop k ++ (ws4 ++ dt)) = none) :
    tryRegular (sgn ++ (d1 ++ (dot ++ (ws1 ++ (kw ++ (ws2 ++ (e1 ++ (edot ++
        (ws3 ++ (merch ++ (ws4 ++ dt))))))))))) =
      some (sgn ++ (d1 ++ dot), merch, dt) := by
  have hkwhead := regularKW_head kw hkw
  have hkwne : kw ≠ [] := by
    simp only [regularKWs, List.mem_cons, List.not_mem_nil, or_false] at hkw
    rcases hkw with rfl | rfl | rfl | rfl <;> decide
  have h1 : munchSignedNum (sgn ++ (d1 ++ (dot ++ (ws1 ++ (kw ++ (ws2 ++ (e1 ++
      (edot ++ (ws3 ++ (merch ++ (ws4 ++ dt))))))))))) =
      some (sgn ++ (d1 ++ dot), ws1 ++ (kw ++ (ws2 ++ (e1 ++ (edot ++ (ws3 ++
        (merch ++ (ws4 ++ dt)))))))) :=
    munchSignedNum_exact sgn d1 dot _ hsgn hd1ne hd1 hdot
      (head_all isWS ws1 _ hws1ne hws1)
  have h2 : munchWS (ws1 ++ (kw ++ (ws2 ++ (e1 ++ (edot ++ (ws3 ++ (merch ++
      (ws4 ++ dt)))))))) =
      some (kw ++ (ws2 ++ (e1 ++ (edot ++ (ws3 ++ (merch ++ (ws4 ++ dt))))))) :=
    munchWS_exact ws1 _ hws1ne hws1 (head_all_not isWS kw _ hkwne hkwhead)
  have h3 : munchKW regularKWs (kw ++ (ws2 ++ (e1 ++ (edot ++ (ws3 ++ (merch ++
      (ws4 ++ dt))))))) =
      some (ws2 ++ (e1 ++ (edot ++ (ws3 ++ (merch ++ (ws4 ++ dt)))))) :=
    munchKW_regular kw _ hkw
  have he1head : ∀ c, e1.head? = some c → isWS c = false := by
    intro c hc
    cases e1 with
    | nil => exact absurd rfl he1ne
    | cons x xs =>
      injection hc with hc'
      subst hc'
      exact isDC_not_isWS x (he1 x (List.mem_cons_self x xs))
  have h4 : munchWS (ws2 ++ (e1 ++ (edot ++ (ws3 ++ (merch ++ (ws4 ++ dt)))))) =
      some (e1 ++ (edot ++ (ws3 ++ (merch ++ (ws4 ++ dt))))) :=
    munchWS_exact ws2 _ hws2ne hws2 (head_all_not isWS e1 _ he1ne he1head)
  have h5 : munchNum (e1 ++ (edot ++ (ws3 ++ (merch ++ (ws4 ++ dt))))) =
      some (e1 ++ edot, ws3 ++ (merch ++ (ws4 ++ dt))) :=
    munchNum_exact e1 edot _ he1ne he1 hedot (head_all isWS ws3 _ hws3ne hws3)
  have h6 : munchWS (ws3 ++ (merch ++ (ws4 ++ dt))) =
      some (merch ++ (ws4 ++ dt)) :=
    munchWS_exact ws3 _ hws3ne hws3 (head_all_not isWS merch _ hmne hmhead)
  have h7 : merchantScan [] (merch ++ (ws4 ++ dt)) = some (merch, dt, []) := by
    have := merchantScan_run ws4 dt hws4ne hws4 hdt merch [] hmne hmnl hnoearly
    simpa using this
  simp only [tryRegular, h1, h2, h3, h4, h5, h6, h7]

/-- **C1.** Every text line that matches the single-charge grammar — a signed
decimal charge amount, whitespace, one of the fixed regular/foreign
type-keyword literals, whitespace, a decimal original amount, whitespace, a
merchant span (non-empty, newline-free, not starting with whitespace, free of
the header markers, and containing no internal whitespace-then-date break,
which is what makes the lazy merchant group capture exactly the span), a
whitespace run, and a `DD/MM/YY` date token — whose charge amount parses,
after removing comma thousands separators, to a value strictly greater than
zero, makes `extract_transactions` emit exactly one `RawTransaction`: its
`raw_date` is the date token, its merchant is the trimmed merchant span
passed through the bidi normalizer, and its amount is the parsed charge
amount. -/
theorem extract_single_charge
    (line sgn d1 dot ws1 kw ws2 e1 edot ws3 merch ws4 dt : List Char) (q : ℚ)
    (hline : line = sgn ++ (d1 ++ (dot ++ (ws1 ++ (kw ++ (ws2 ++ (e1 ++ (edot ++
      (ws3 ++ (merch ++ (ws4 ++ dt)))))))))))
    (hsgn : sgn = [] ∨ sgn = ['-'])
    (hd1ne : d1 ≠ []) (hd1 : ∀ c ∈ d1, isDC c = true)
    (hdot : dot = [] ∨ ∃ fr, dot = '.' :: fr ∧ ∀ c ∈ fr, isDigitCh c = true)
    (hws1ne : ws1 ≠ []) (hws1 : ∀ c ∈ ws1, isWS c = true)
    (hkw : kw ∈ regularKWs)
    (hws2ne : ws2 ≠ []) (hws2 : ∀ c ∈ ws2, isWS c = true)
    (he1ne : e1 ≠ []) (he1 : ∀ c ∈ e1, isDC c = true)
    (hedot : edot = [] ∨ ∃ fr, edot = '.' :: fr ∧ ∀ c ∈ fr, isDigitCh c = true)
    (hws3ne : ws3 ≠ []) (hws3 : ∀ c ∈ ws3, isWS c = true)
    (hmne : merch ≠ []) (hmnl : '\n' ∉ merch)
    (hmhead : ∀ c, merch.head? = some c → isWS c = false)
    (hws4ne : ws4 ≠ []) (hws4 : ∀ c ∈ ws4, isWS c = true)
    (hdt : matchDate dt = some (dt, []))
    (hnoearly : ∀ k, k < merch.length → 1 ≤ k →
      tryWSDate (merch.drop k ++ (ws4 ++ dt)) = none)
    (hnohdr1 : containsSub headerATxt line = false)
    (hnohdr2 : containsSub headerBTxt line = false)
    (hq : parseFloat ((sgn ++ (d1 ++ dot)).filter (fun c => c ≠ ',')) = some q)
    (hqpos : 0 < q) :
    process_line line = some ⟨dt, fix_hebrew_text (pyStrip merch), q⟩ ∧
    extract_transactions [[line]] = [⟨dt, fix_hebrew_text (pyStrip merch), q⟩] := by
  have hreg := tryRegular_exact sgn d1 dot ws1 kw ws2 e1 edot ws3 merch ws4 dt
    hsgn hd1ne hd1 hdot hws1ne hws1 hkw hws2ne hws2 he1ne he1 hedot hws3ne hws3
    hmne hmnl hmhead hws4ne hws4 hdt hnoearly
  rw [← hline] at hreg
  have hsearch : searchAt tryRegular line = some (sgn ++ (d1 ++ dot), merch, dt) :=
    searchAt_head tryRegular line _ hreg
  have hsl : searchLine line = some (sgn ++ (d1 ++ dot), merch, dt) := by
    unfold searchLine
    rw [hsearch]
  have hproc : process_line line = some ⟨dt, fix_hebrew_text (pyStrip merch), q⟩ := by
    unfold process_line
    simp only [hnohdr1, hnohdr2, Bool.or_self, Bool.false_eq_true, if_false, hsl, hq]
    rw [if_neg (not_le.mpr hqpos)]
  exact ⟨hproc, by simp [extract_transactions, hproc]⟩

/-- **C1 witness.** The grammar theorem applied to the concrete line
`"10.00 הליגר הקסע 10.00 MerchantX 28/11/25"` of the specification's example,
yielding exactly `RawTransaction{raw_date:"28/11/25", merchant:"MerchantX",
amount:10.00}`. -/
theorem extract_single_charge_witness :
    process_line (cs "10.00 הליגר הקסע 10.00 MerchantX 28/11/25") =
      some ⟨cs "28/11/25", cs "MerchantX", 10⟩ ∧
    extract_transactions [[cs "10.00 הליגר הקסע 10.00 MerchantX 28/11/25"]] =
      [⟨cs "28/11/25", cs "MerchantX", 10⟩] := by
  have h := extract_single_charge
    (cs "10.00 הליגר הקסע 10.00 MerchantX 28/11/25")
    [] (cs "10") (cs ".00") [' '] (cs "הליגר הקסע") [' '] (cs "10") (cs ".00")
    [' '] (cs "MerchantX") [' '] (cs "28/11/25") 10
    (by decide)
    (Or.inl rfl)
    (by decide) (by decide)
    (Or.inr ⟨cs "00", by decide, by decide⟩)
    (by decide) (by decide)
    (by decide)
    (by decide) (by decide)
    (by decide) (by decide)
    (Or.inr ⟨cs "00", by decide, by decide⟩)
    (by decide) (by decide)
    (by decide) (by decide) (by decide)
    (by decide) (by decide)
    (by decide)
    (by decide)
    (by decide) (by decide)
    (by decide) (by decide)
  exact ⟨h.1.trans (by decide), h.2.trans (by decide)⟩

/-- **C4 witness.** The normalizer at a concrete Hebrew-free merchant (kept
unchanged) and a concrete Hebrew string (reversed). -/
theorem fix_hebrew_text_spec_witness :
    fix_hebrew_text (cs "MerchantX") = cs "MerchantX" ∧
    fix_hebrew_text (cs "אבג") = (cs "אבג").reverse :=
  ⟨(fix_hebrew_text_spec (cs "MerchantX")).1 (by decide),
   (fix_hebrew_text_spec (cs "אבג")).2 (by decide)⟩
